import Mathlib

/-!
Shallow embedding of the batch deduplication engine of `src/index.ts`
(a Cloudflare Worker deduplicating batches of short text messages
before insertion into a pgvector store).

Modelling conventions:
* Vectors are lists of rationals; the store's cosine distance operator
  `<=>` is an abstract function `dist : Vec → Vec → ℚ` carried by the
  environment, and the similarity score returned by the SQL query is
  `1 - dist`, exactly as in the `SELECT` of `processBatch`.
* The external collaborators (embedding provider, store queries and
  inserts) may fail: the environment carries a failure schedule.
  A JavaScript exception aborts the batch; in the model a failed run
  returns the store as committed so far and `none` in place of the
  success response.
* JavaScript number division is modelled over ℚ, with `none` standing
  for the non-finite results (`NaN` / `Infinity`) of dividing by zero.
-/

namespace Dedup

/-- An embedding vector (fixed-dimension real-valued vector; modelled over ℚ). -/
abbrev Vec := List ℚ

/-- The `Message` record of `src/index.ts`. -/
structure Message where
  message_id : String
  timestamp : String
  content : String
  platform_name : String
  platform_user_id : String
  platform_message_id : String
  platform_message_url : String
  deriving DecidableEq, Repr

/-- The `BatchRequest` record of `src/index.ts`.  `filter_by` is optional; the threshold
is a real number, modelled over ℚ. -/
structure BatchRequest where
  table_name : String
  job_id : String
  topic : String
  industry : String
  subindustry : String
  similarity_search_score_threshold : ℚ
  filter_by : Option (List String)
  messages : List Message
  deriving DecidableEq, Repr

/-- A row of the pgvector table, as written by the `INSERT` statement of
`processBatch` (all `Message` fields plus the batch's `job_id`, `topic`,
`industry`, `subindustry`, the embedding and the similarity score at
acceptance time). -/
structure StoredRecord where
  job_id : String
  message_id : String
  timestamp : String
  topic : String
  industry : String
  subindustry : String
  content : String
  embedding : Vec
  similarity_search_score : ℚ
  platform_name : String
  platform_user_id : String
  platform_message_id : String
  platform_message_url : String
  deriving DecidableEq, Repr

/-- The store is the list of rows of the target table. -/
abbrev Store := List StoredRecord

/-- The batch statistics of the response.  `insertion_rate` is a JS number:
`none` models the non-finite value produced by division by zero. -/
structure Stats where
  received : ℕ
  inserted : ℕ
  dropped : ℕ
  insertion_rate : Option ℚ
  deriving DecidableEq, Repr

/-- The `data` payload of a successful `BatchResponse`. -/
structure BatchResponse where
  table_name : String
  job_id : String
  topic : String
  industry : String
  subindustry : String
  similarity_search_score_threshold : ℚ
  filter_by : List String
  stats : Stats
  non_duplicate_messages : List (String × String)
  deriving DecidableEq, Repr

/-- External collaborators and their failure schedule:
* `embedChunk` is one `env.AI.run` call on a chunk's contents (`none` = the
  provider call throws); on success it returns one vector per input string
  unless the provider misbehaves (a short result makes the worker throw when
  it indexes the missing vector, which the model reproduces).
* `dist` is the store's cosine distance operator `<=>`.
* `queryFails`/`insertFails` schedule store failures (connectivity loss …)
  for the nearest-neighbor query and the insert. -/
structure Env where
  embedChunk : List String → Option (List Vec)
  dist : Vec → Vec → ℚ
  queryFails : Store → Vec → Bool
  insertFails : Store → StoredRecord → Bool

/-! ### Exact-match filter -/

/-- The seen-set loop of `processBatch` (lines 167–176): walk the messages,
keeping a message iff its `content` was not seen before. -/
def dedupeGo (seen : List String) : List Message → List Message
  | [] => []
  | m :: ms =>
    if m.content ∈ seen then dedupeGo seen ms
    else m :: dedupeGo (m.content :: seen) ms

/-- Computation of `uniqueMessages`: the batch with exact content duplicates removed,
first occurrence kept. -/
def dedupeExact (l : List Message) : List Message := dedupeGo [] l

/-! ### Filter predicate construction -/

/-- The batch-request value of each of the four recognized filter fields
(`none` for a name outside the closed set). -/
def fieldValue (data : BatchRequest) : String → Option String
  | "topic" => some data.topic
  | "industry" => some data.industry
  | "subindustry" => some data.subindustry
  | "job_id" => some data.job_id
  | _ => none

/-- The `whereConditions` loop of `processBatch` (lines 212–226): for each
name in `filter_by`, push an equality condition when the name is one of
`topic`, `industry`, `subindustry`, `job_id` and the request's value for it
is truthy (a non-empty string). -/
def buildConditions (fb : List String) (data : BatchRequest) : List (String × String) :=
  fb.filterMap fun f =>
    match fieldValue data f with
    | some v => if v = "" then none else some (f, v)
    | none => none

/-- The named column of a stored record, for the four filterable columns. -/
def recField (r : StoredRecord) : String → String
  | "topic" => r.topic
  | "industry" => r.industry
  | "subindustry" => r.subindustry
  | "job_id" => r.job_id
  | _ => ""

/-- A row satisfies the `WHERE` clause iff it satisfies every equality
condition. -/
def matchesConds (conds : List (String × String)) (r : StoredRecord) : Bool :=
  conds.all fun c => recField r c.1 = c.2

/-! ### Nearest-neighbor query -/

/-- The similarity query of `processBatch` (lines 234–247): restrict the
table to the rows matching the `WHERE` clause, order by distance to the
query vector ascending, take the top row, and report `1 - distance` as its
similarity score; when no row matches, the score defaults to `0`. -/
def nnScore (dist : Vec → Vec → ℚ) (conds : List (String × String))
    (store : Store) (v : Vec) : ℚ :=
  match (store.filter (matchesConds conds)).map (fun r => dist v r.embedding) with
  | [] => 0
  | d :: ds => 1 - ds.foldl min d

/-! ### Per-message similarity gate and incremental writer -/

/-- The row written by the `INSERT` statement (lines 255–278). -/
def mkRec (data : BatchRequest) (m : Message) (v : Vec) (score : ℚ) : StoredRecord :=
  { job_id := data.job_id
    message_id := m.message_id
    timestamp := m.timestamp
    topic := data.topic
    industry := data.industry
    subindustry := data.subindustry
    content := m.content
    embedding := v
    similarity_search_score := score
    platform_name := m.platform_name
    platform_user_id := m.platform_user_id
    platform_message_id := m.platform_message_id
    platform_message_url := m.platform_message_url }

/-- The mutable state of one `processBatch` invocation: the table contents,
the `nonDuplicateMessages` accumulator, and the running `dropped` count. -/
structure PState where
  store : Store
  accepted : List Message
  dropped : ℕ
  deriving DecidableEq, Repr

/-- One iteration of the inner message loop (lines 201–294): query the
nearest neighbor, default the score to `0` when no row matches, accept
(insert the row and push the message) when the score is strictly below the
threshold, else count the message as dropped.  `none` models a thrown store
error (failed query or failed insert), which aborts the batch. -/
def stepMsg (env : Env) (data : BatchRequest) (conds : List (String × String))
    (st : PState) (m : Message) (v : Vec) : Option PState :=
  if env.queryFails st.store v then none
  else
    let score := nnScore env.dist conds st.store v
    if score < data.similarity_search_score_threshold then
      let r := mkRec data m v score
      if env.insertFails st.store r then none
      else some ⟨st.store ++ [r], st.accepted ++ [m], st.dropped⟩
    else some ⟨st.store, st.accepted, st.dropped + 1⟩

/-- The inner loop over one chunk: messages are processed strictly
sequentially, each against the store as left by its predecessors.  A message
whose embedding is missing (provider returned a short list, so the worker
throws on `undefined`) or whose store call fails aborts the run: the flag
`false` reports the abort, and the state carries everything committed
before it. -/
def runMsgs (env : Env) (data : BatchRequest) (conds : List (String × String)) :
    List Message → List Vec → PState → PState × Bool
  | [], _, st => (st, true)
  | _ :: _, [], st => (st, false)
  | m :: ms, v :: vs, st =>
    match stepMsg env data conds st m v with
    | none => (st, false)
    | some st' => runMsgs env data conds ms vs st'

/-- Constant `embeddingBatchSize` (line 185). -/
def embeddingBatchSize : ℕ := 100

/-- The chunking of the embedding loop (line 188): contiguous chunks of at
most 100 messages. -/
def chunksOf : List Message → List (List Message)
  | [] => []
  | m :: ms =>
    (m :: ms).take embeddingBatchSize :: chunksOf ((m :: ms).drop embeddingBatchSize)
  termination_by l => l.length
  decreasing_by simp [embeddingBatchSize]; omega

/-- The outer loop over chunks: one provider call per chunk, then the inner
message loop; a failed provider call or an aborted inner loop aborts the
whole batch. -/
def runChunks (env : Env) (data : BatchRequest) (conds : List (String × String)) :
    List (List Message) → PState → PState × Bool
  | [], st => (st, true)
  | c :: cs, st =>
    match env.embedChunk (c.map (·.content)) with
    | none => (st, false)
    | some vs =>
      match runMsgs env data conds c vs st with
      | (st', true) => runChunks env data conds cs st'
      | (st', false) => (st', false)

/-- JavaScript number division of two counts: `none` models the non-finite
result (`NaN` or `Infinity`) of dividing by zero. -/
def jsDiv (a b : ℕ) : Option ℚ :=
  if b = 0 then none else some ((a : ℚ) / b)

/-- Function `processBatch` (lines 147–338), for a given initial table contents:
remove exact duplicates, account for them in `dropped`, run the chunked
similarity/insert loop, and on success assemble the response.  The first
component is the table as left by the run (on an abort, exactly the rows
committed before the failure); the second is the success payload, `none`
when the batch aborted. -/
def processBatch (env : Env) (data : BatchRequest) (fb : List String)
    (store0 : Store) : Store × Option BatchResponse :=
  match runChunks env data (buildConditions fb data)
      (chunksOf (dedupeExact data.messages))
      ⟨store0, [], data.messages.length - (dedupeExact data.messages).length⟩ with
  | (st, true) =>
    (st.store,
      some
        { table_name := data.table_name
          job_id := data.job_id
          topic := data.topic
          industry := data.industry
          subindustry := data.subindustry
          similarity_search_score_threshold := data.similarity_search_score_threshold
          filter_by := fb
          stats :=
            { received := data.messages.length
              inserted := st.accepted.length
              dropped := st.dropped
              insertion_rate := jsDiv st.accepted.length data.messages.length }
          non_duplicate_messages := st.accepted.map fun m => (m.message_id, m.content) })
  | (st, false) => (st.store, none)

/-- The defaulting of `filter_by` (line 124): `data.filter_by || ["topic",
"subindustry"]`.  An absent (or `null`) `filter_by` is falsy and takes the
default; a present array — including the empty array — is truthy in
JavaScript and is used as is. -/
def resolveFilterBy : Option (List String) → List String
  | none => ["topic", "subindustry"]
  | some l => l

/-! ### Lemmas on the exact-match filter -/

theorem dedupeGo_sublist (seen : List String) (l : List Message) :
    (dedupeGo seen l).Sublist l := by
  induction l generalizing seen with
  | nil => simp [dedupeGo]
  | cons m ms ih =>
    simp only [dedupeGo]
    split
    · exact (ih seen).trans (List.sublist_cons_self m ms)
    · exact (ih (m.content :: seen)).cons₂ m

theorem dedupeGo_first_occ (seen : List String) (l : List Message) (m : Message)
    (hm : m ∈ dedupeGo seen l) :
    m.content ∉ seen ∧ l.find? (fun x => x.content == m.content) = some m := by
  induction l generalizing seen with
  | nil => simp [dedupeGo] at hm
  | cons m' ms ih =>
    simp only [dedupeGo] at hm
    split at hm
    · rename_i hseen
      obtain ⟨h1, h2⟩ := ih seen hm
      refine ⟨h1, ?_⟩
      rw [List.find?_cons_of_neg, h2]
      simp only [beq_iff_eq]
      intro hc
      exact h1 (hc ▸ hseen)
    · rename_i hseen
      rw [List.mem_cons] at hm
      rcases hm with rfl | hm
      · exact ⟨hseen, by simp [List.find?_cons_of_pos]⟩
      · obtain ⟨h1, h2⟩ := ih (m'.content :: seen) hm
        simp only [List.mem_cons, not_or] at h1
        refine ⟨h1.2, ?_⟩
        rw [List.find?_cons_of_neg, h2]
        simp only [beq_iff_eq]
        exact fun hc => h1.1 hc.symm

theorem dedupeGo_countP (seen : List String) (l : List Message) (c : String) :
    (dedupeGo seen l).countP (fun m => m.content == c)
      = if c ∈ seen then 0 else min 1 (l.countP (fun m => m.content == c)) := by
  induction l generalizing seen with
  | nil => simp [dedupeGo]
  | cons m ms ih =>
    simp only [dedupeGo]
    split
    · rename_i hseen
      rw [ih seen]
      by_cases hc : c ∈ seen
      · simp [hc]
      · simp only [if_neg hc, List.countP_cons]
        have hne : (m.content == c) = false := by
          simp only [beq_eq_false_iff_ne, ne_eq]
          intro h
          exact hc (h ▸ hseen)
        simp [hne]
    · rename_i hseen
      rw [List.countP_cons, ih (m.content :: seen), List.countP_cons]
      by_cases hmc : m.content = c
      · subst hmc
        simp [hseen]
      · have hne : (m.content == c) = false := by simpa using hmc
        simp only [hne, cond_false, List.mem_cons]
        by_cases hc : c ∈ seen
        · simp [hc, Ne.symm hmc]
        · simp [hc, Ne.symm hmc]

theorem dedupeExact_sublist (l : List Message) : (dedupeExact l).Sublist l :=
  dedupeGo_sublist [] l

theorem dedupeExact_first_occ (l : List Message) (m : Message)
    (hm : m ∈ dedupeExact l) :
    l.find? (fun x => x.content == m.content) = some m :=
  (dedupeGo_first_occ [] l m hm).2

theorem dedupeExact_countP (l : List Message) (c : String) :
    (dedupeExact l).countP (fun m => m.content == c)
      = min 1 (l.countP (fun m => m.content == c)) := by
  simpa using dedupeGo_countP [] l c

theorem dedupeGo_content_nodup (seen : List String) (l : List Message) :
    ((dedupeGo seen l).map Message.content).Nodup := by
  induction l generalizing seen with
  | nil => simp [dedupeGo]
  | cons m ms ih =>
    simp only [dedupeGo]
    split
    · exact ih seen
    · simp only [List.map_cons, List.nodup_cons]
      refine ⟨?_, ih (m.content :: seen)⟩
      simp only [List.mem_map]
      rintro ⟨x, hx, hcx⟩
      have := (dedupeGo_first_occ _ _ _ hx).1
      simp only [List.mem_cons, not_or] at this
      exact this.1 hcx

theorem dedupeExact_content_nodup (l : List Message) :
    ((dedupeExact l).map Message.content).Nodup :=
  dedupeGo_content_nodup [] l

/-! ### Lemmas on the filter predicate -/

theorem fieldValue_isSome_iff (data : BatchRequest) (f : String) :
    (fieldValue data f).isSome = true
      ↔ f ∈ ["topic", "industry", "subindustry", "job_id"] := by
  unfold fieldValue
  split <;> simp_all

theorem mem_buildConditions (fb : List String) (data : BatchRequest)
    (f v : String) :
    (f, v) ∈ buildConditions fb data
      ↔ f ∈ fb ∧ fieldValue data f = some v ∧ v ≠ "" := by
  unfold buildConditions
  rw [List.mem_filterMap]
  constructor
  · rintro ⟨a, ha, hg⟩
    revert hg
    split
    · rename_i w hw
      split
      · rintro ⟨⟩
      · rintro ⟨⟩
        exact ⟨ha, by assumption, by assumption⟩
    · rintro ⟨⟩
  · rintro ⟨hf, hv, hne⟩
    exact ⟨f, hf, by rw [hv]; simp [hne]⟩

theorem recField_mkRec (data : BatchRequest) (m : Message) (v : Vec) (s : ℚ)
    (f w : String) (hf : fieldValue data f = some w) :
    recField (mkRec data m v s) f = w := by
  unfold fieldValue at hf
  revert hf
  split <;> rintro ⟨⟩ <;> rfl

theorem matchesConds_mkRec (fb : List String) (data : BatchRequest)
    (m : Message) (v : Vec) (s : ℚ) :
    matchesConds (buildConditions fb data) (mkRec data m v s) = true := by
  rw [matchesConds, List.all_eq_true]
  rintro ⟨f, w⟩ hc
  obtain ⟨-, hv, -⟩ := (mem_buildConditions fb data f w).1 hc
  simp [recField_mkRec data m v s f w hv]

/-! ### Lemmas on the nearest-neighbor score -/

theorem foldl_min_le {α : Type} [LinearOrder α] :
    ∀ (l : List α) (a x : α), x ∈ a :: l → l.foldl min a ≤ x := by
  intro l
  induction l with
  | nil =>
    intro a x hx
    simp only [List.mem_singleton] at hx
    simp [hx]
  | cons b bs ih =>
    intro a x hx
    simp only [List.foldl_cons]
    rw [List.mem_cons] at hx
    rcases hx with rfl | hx
    · exact le_trans (ih (min x b) (min x b) (List.mem_cons_self _ _)) (min_le_left _ _)
    · rw [List.mem_cons] at hx
      rcases hx with rfl | hx
      · exact le_trans (ih (min a x) (min a x) (List.mem_cons_self _ _)) (min_le_right _ _)
      · exact ih (min a b) x (List.mem_cons_of_mem _ hx)

theorem le_nnScore_of_mem (dist : Vec → Vec → ℚ) (conds : List (String × String))
    (store : Store) (v : Vec) (r : StoredRecord)
    (hr : r ∈ store) (hm : matchesConds conds r = true) :
    1 - dist v r.embedding ≤ nnScore dist conds store v := by
  have hrf : r ∈ store.filter (matchesConds conds) := List.mem_filter.2 ⟨hr, hm⟩
  have hd : dist v r.embedding
      ∈ (store.filter (matchesConds conds)).map (fun s => dist v s.embedding) :=
    List.mem_map_of_mem _ hrf
  unfold nnScore
  split
  · rename_i heq
    rw [heq] at hd
    simp at hd
  · rename_i d ds heq
    rw [heq] at hd
    have := foldl_min_le ds d (dist v r.embedding) hd
    linarith

theorem nnScore_of_no_match (dist : Vec → Vec → ℚ) (conds : List (String × String))
    (store : Store) (v : Vec) (h : store.filter (matchesConds conds) = []) :
    nnScore dist conds store v = 0 := by
  unfold nnScore
  split
  · rfl
  · rename_i d ds heq
    rw [h] at heq
    simp at heq

/-! ### Lemmas on the per-message step -/

theorem stepMsg_some_cases (env : Env) (data : BatchRequest)
    (conds : List (String × String)) (st st' : PState) (m : Message) (v : Vec)
    (h : stepMsg env data conds st m v = some st') :
    (nnScore env.dist conds st.store v < data.similarity_search_score_threshold ∧
      st' = ⟨st.store ++ [mkRec data m v (nnScore env.dist conds st.store v)],
             st.accepted ++ [m], st.dropped⟩) ∨
    (¬ nnScore env.dist conds st.store v < data.similarity_search_score_threshold ∧
      st' = ⟨st.store, st.accepted, st.dropped + 1⟩) := by
  unfold stepMsg at h
  split at h
  · exact absurd h (by simp)
  · dsimp only at h
    split at h
    · rename_i hlt
      split at h
      · exact absurd h (by simp)
      · rw [Option.some.injEq] at h
        exact Or.inl ⟨hlt, h.symm⟩
    · rename_i hge
      rw [Option.some.injEq] at h
      exact Or.inr ⟨hge, h.symm⟩

/-! ### Invariants of the inner message loop -/

theorem runMsgs_ext (env : Env) (data : BatchRequest)
    (conds : List (String × String)) :
    ∀ (ms : List Message) (vs : List Vec) (st : PState),
      ∃ acc recs,
        (runMsgs env data conds ms vs st).1.store = st.store ++ recs ∧
        (runMsgs env data conds ms vs st).1.accepted = st.accepted ++ acc ∧
        acc.Sublist ms ∧
        recs.map StoredRecord.content = acc.map Message.content := by
  intro ms
  induction ms with
  | nil => intro vs st; exact ⟨[], [], by simp [runMsgs]⟩
  | cons m ms ih =>
    intro vs st
    cases vs with
    | nil => exact ⟨[], [], by simp [runMsgs]⟩
    | cons v vs =>
      simp only [runMsgs]
      cases hstep : stepMsg env data conds st m v with
      | none => exact ⟨[], [], by simp⟩
      | some st' =>
        obtain ⟨acc, recs, h1, h2, h3, h4⟩ := ih vs st'
        rcases stepMsg_some_cases env data conds st st' m v hstep with
          ⟨-, rfl⟩ | ⟨-, rfl⟩
        · refine ⟨m :: acc, mkRec data m v (nnScore env.dist conds st.store v) :: recs,
            ?_, ?_, h3.cons₂ m, ?_⟩
          · simpa [List.append_assoc] using h1
          · simpa [List.append_assoc] using h2
          · simp [h4, mkRec]
        · exact ⟨acc, recs, by simpa using h1, by simpa using h2,
            h3.cons m, h4⟩

theorem runMsgs_count (env : Env) (data : BatchRequest)
    (conds : List (String × String)) :
    ∀ (ms : List Message) (vs : List Vec) (st : PState),
      (runMsgs env data conds ms vs st).2 = true →
      (runMsgs env data conds ms vs st).1.accepted.length
          + (runMsgs env data conds ms vs st).1.dropped
        = st.accepted.length + st.dropped + ms.length := by
  intro ms
  induction ms with
  | nil => intro vs st _; simp [runMsgs]
  | cons m ms ih =>
    intro vs st hok
    cases vs with
    | nil => simp [runMsgs] at hok
    | cons v vs =>
      simp only [runMsgs] at hok ⊢
      split at hok
      · simp at hok
      · rename_i st' hstep
        have := ih vs st' hok
        rcases stepMsg_some_cases env data conds st st' m v hstep with
          ⟨-, rfl⟩ | ⟨-, rfl⟩ <;> simp [this] <;> omega

theorem runMsgs_fail (env : Env) (data : BatchRequest)
    (conds : List (String × String)) :
    ∀ (ms : List Message) (vs : List Vec) (st st' : PState),
      runMsgs env data conds ms vs st = (st', false) →
      ∃ pre suf acc recs,
        ms = pre ++ suf ∧ suf ≠ [] ∧
        st'.store = st.store ++ recs ∧
        st'.accepted = st.accepted ++ acc ∧
        acc.Sublist pre ∧
        recs.map StoredRecord.content = acc.map Message.content := by
  intro ms
  induction ms with
  | nil => intro vs st st' h; simp [runMsgs] at h
  | cons m ms ih =>
    intro vs st st' h
    cases vs with
    | nil =>
      simp only [runMsgs, Prod.mk.injEq] at h
      exact ⟨[], m :: ms, [], [], by simp, by simp, by simp [← h.1], by simp [← h.1], by simp, rfl⟩
    | cons v vs =>
      simp only [runMsgs] at h
      split at h
      · simp only [Prod.mk.injEq] at h
        exact ⟨[], m :: ms, [], [],
          by simp, by simp, by simp [← h.1], by simp [← h.1], by simp, rfl⟩
      · rename_i st₁ hstep
        obtain ⟨pre, suf, acc, recs, h1, h2, h3, h4, h5, h6⟩ := ih vs st₁ st' h
        rcases stepMsg_some_cases env data conds st st₁ m v hstep with
          ⟨-, rfl⟩ | ⟨-, rfl⟩
        · refine ⟨m :: pre, suf, m :: acc,
            mkRec data m v (nnScore env.dist conds st.store v) :: recs,
            by simp [h1], h2, ?_, ?_, h5.cons₂ m, ?_⟩
          · simpa [List.append_assoc] using h3
          · simpa [List.append_assoc] using h4
          · simp [h6, mkRec]
        · exact ⟨m :: pre, suf, acc, recs, by simp [h1], h2,
            by simpa using h3, by simpa using h4, h5.cons m, h6⟩

theorem runMsgs_append (env : Env) (data : BatchRequest)
    (conds : List (String × String)) :
    ∀ (ms₁ : List Message) (vs₁ : List Vec) (ms₂ : List Message) (vs₂ : List Vec)
      (st : PState), ms₁.length = vs₁.length →
      runMsgs env data conds (ms₁ ++ ms₂) (vs₁ ++ vs₂) st =
        match runMsgs env data conds ms₁ vs₁ st with
        | (st₁, true) => runMsgs env data conds ms₂ vs₂ st₁
        | (st₁, false) => (st₁, false) := by
  intro ms₁
  induction ms₁ with
  | nil =>
    intro vs₁ ms₂ vs₂ st hlen
    cases vs₁ with
    | nil => simp [runMsgs]
    | cons v vs => simp at hlen
  | cons m ms ih =>
    intro vs₁ ms₂ vs₂ st hlen
    cases vs₁ with
    | nil => simp at hlen
    | cons v vs =>
      simp only [List.cons_append, runMsgs]
      cases hstep : stepMsg env data conds st m v with
      | none => rfl
      | some st₁ =>
        simp only [List.length_cons, Nat.succ_inj] at hlen
        exact ih vs ms₂ vs₂ st₁ hlen

/-! ### Invariants of the chunked embedding loop -/

theorem chunksOf_join : ∀ l : List Message, (chunksOf l).flatten = l := by
  intro l
  induction l using chunksOf.induct with
  | case1 => simp [chunksOf]
  | case2 m ms ih =>
    rw [chunksOf]
    simp only [List.flatten_cons, ih, List.take_append_drop]

theorem ne_nil_of_mem_chunksOf : ∀ (l : List Message) (c : List Message),
    c ∈ chunksOf l → c ≠ [] := by
  intro l
  induction l using chunksOf.induct with
  | case1 => simp [chunksOf]
  | case2 m ms ih =>
    intro c hc
    rw [chunksOf] at hc
    rw [List.mem_cons] at hc
    rcases hc with rfl | hc
    · simp [embeddingBatchSize]
    · exact ih c hc

theorem runChunks_ext (env : Env) (data : BatchRequest)
    (conds : List (String × String)) :
    ∀ (cs : List (List Message)) (st : PState),
      ∃ acc recs,
        (runChunks env data conds cs st).1.store = st.store ++ recs ∧
        (runChunks env data conds cs st).1.accepted = st.accepted ++ acc ∧
        acc.Sublist cs.flatten ∧
        recs.map StoredRecord.content = acc.map Message.content := by
  intro cs
  induction cs with
  | nil => intro st; exact ⟨[], [], by simp [runChunks]⟩
  | cons c cs ih =>
    intro st
    simp only [runChunks]
    cases henv : env.embedChunk (c.map (·.content)) with
    | none => exact ⟨[], [], by simp⟩
    | some vs =>
      dsimp only
      obtain ⟨acc₁, recs₁, g1, g2, g3, g4⟩ := runMsgs_ext env data conds c vs st
      generalize hrun : runMsgs env data conds c vs st = res
      rw [hrun] at g1 g2
      obtain ⟨st₁, ok₁⟩ := res
      cases ok₁ with
      | true =>
        obtain ⟨acc₂, recs₂, k1, k2, k3, k4⟩ := ih st₁
        refine ⟨acc₁ ++ acc₂, recs₁ ++ recs₂, ?_, ?_, ?_, ?_⟩
        · simp only at g1
          simp [k1, g1, List.append_assoc]
        · simp only at g2
          simp [k2, g2, List.append_assoc]
        · simpa using g3.append k3
        · simp [k4, g4]
      | false =>
        refine ⟨acc₁, recs₁, by simpa using g1, by simpa using g2, ?_, g4⟩
        simp only [List.flatten_cons]
        exact g3.trans (List.sublist_append_left c cs.flatten)

theorem runChunks_count (env : Env) (data : BatchRequest)
    (conds : List (String × String)) :
    ∀ (cs : List (List Message)) (st : PState),
      (runChunks env data conds cs st).2 = true →
      (runChunks env data conds cs st).1.accepted.length
          + (runChunks env data conds cs st).1.dropped
        = st.accepted.length + st.dropped + cs.flatten.length := by
  intro cs
  induction cs with
  | nil => intro st _; simp [runChunks]
  | cons c cs ih =>
    intro st hok
    simp only [runChunks] at hok ⊢
    split at hok
    · simp at hok
    · rename_i vs henv
      split at hok
      · rename_i st₁ hrun
        have h1 := ih st₁ hok
        have h2 := runMsgs_count env data conds c vs st (by rw [hrun])
        rw [hrun] at h2
        simp only at h1 h2
        simp only [List.flatten_cons, List.length_append]
        omega
      · simp at hok

theorem runChunks_fail (env : Env) (data : BatchRequest)
    (conds : List (String × String)) :
    ∀ (cs : List (List Message)) (st st' : PState),
      (∀ c ∈ cs, c ≠ []) →
      runChunks env data conds cs st = (st', false) →
      ∃ pre suf acc recs,
        cs.flatten = pre ++ suf ∧ suf ≠ [] ∧
        st'.store = st.store ++ recs ∧
        st'.accepted = st.accepted ++ acc ∧
        acc.Sublist pre ∧
        recs.map StoredRecord.content = acc.map Message.content := by
  intro cs
  induction cs with
  | nil => intro st st' _ h; simp [runChunks] at h
  | cons c cs ih =>
    intro st st' hne h
    simp only [runChunks] at h
    split at h
    · simp only [Prod.mk.injEq] at h
      refine ⟨[], c ++ cs.flatten, [], [], by simp, ?_,
        by simp [← h.1], by simp [← h.1], by simp, rfl⟩
      have : c ≠ [] := hne c (by simp)
      simp only [ne_eq, List.append_eq_nil, not_and]
      exact fun hc => absurd hc this
    · rename_i vs henv
      split at h
      · rename_i st₁ hrun
        obtain ⟨pre, suf, acc₂, recs₂, k1, k2, k3, k4, k5, k6⟩ :=
          ih st₁ st' (fun d hd => hne d (List.mem_cons_of_mem c hd)) h
        obtain ⟨acc₁, recs₁, g1, g2, g3, g4⟩ := runMsgs_ext env data conds c vs st
        rw [hrun] at g1 g2
        simp only at g1 g2
        refine ⟨c ++ pre, suf, acc₁ ++ acc₂, recs₁ ++ recs₂, ?_, k2, ?_, ?_, ?_, ?_⟩
        · simp [k1, List.append_assoc]
        · simp [k3, g1, List.append_assoc]
        · simp [k4, g2, List.append_assoc]
        · exact g3.append k5
        · simp [k6, g4]
      · rename_i st₁ hrun
        simp only [Prod.mk.injEq] at h
        obtain ⟨pre₁, suf₁, acc₁, recs₁, g1, g2, g3, g4, g5, g6⟩ :=
          runMsgs_fail env data conds c vs st st₁ (by rw [hrun])
        refine ⟨pre₁, suf₁ ++ cs.flatten, acc₁, recs₁, ?_, ?_,
          by simp [← h.1, g3], by simp [← h.1, g4], g5, g6⟩
        · simp [g1, List.append_assoc]
        · simp only [ne_eq, List.append_eq_nil, not_and]
          exact fun hc => absurd hc g2

theorem runChunks_pure (env : Env) (data : BatchRequest)
    (conds : List (String × String)) (emb : String → Vec)
    (hp : env.embedChunk = fun ls => some (ls.map emb)) :
    ∀ (l : List Message) (st : PState),
      runChunks env data conds (chunksOf l) st
        = runMsgs env data conds l (l.map fun m => emb m.content) st := by
  intro l
  induction l using chunksOf.induct with
  | case1 => intro st; simp [chunksOf, runChunks, runMsgs]
  | case2 m ms ih =>
    intro st
    rw [chunksOf]
    simp only [runChunks, hp]
    have hmm : (((m :: ms).take embeddingBatchSize).map Message.content).map emb
        = ((m :: ms).take embeddingBatchSize).map fun x => emb x.content := by
      rw [List.map_map]
      rfl
    rw [hmm]
    have hsplit := runMsgs_append env data conds
      ((m :: ms).take embeddingBatchSize)
      (((m :: ms).take embeddingBatchSize).map fun x => emb x.content)
      ((m :: ms).drop embeddingBatchSize)
      (((m :: ms).drop embeddingBatchSize).map fun x => emb x.content)
      st (by simp)
    rw [List.take_append_drop, ← List.map_append, List.take_append_drop] at hsplit
    rw [hsplit]
    cases hrun : runMsgs env data conds ((m :: ms).take embeddingBatchSize)
        (((m :: ms).take embeddingBatchSize).map fun x => emb x.content) st with
    | mk st₁ ok₁ =>
      cases ok₁ with
      | true => simpa using ih st₁
      | false => simp

/-! ### Sequential visibility: the first of two near-duplicates wins -/

theorem mem_accepted_run (env : Env) (data : BatchRequest)
    (conds : List (String × String)) (ms : List Message) (vs : List Vec)
    (st : PState) (x : Message)
    (hx : x ∈ (runMsgs env data conds ms vs st).1.accepted) :
    x ∈ st.accepted ∨ x ∈ ms := by
  obtain ⟨acc, recs, -, e2, e3, -⟩ := runMsgs_ext env data conds ms vs st
  rw [e2] at hx
  rcases List.mem_append.1 hx with h | h
  · exact Or.inl h
  · exact Or.inr (e3.subset h)

theorem nodup_split_facts {l₁ l₂ l₃ : List Message} {A B : Message}
    (hnd : ((l₁ ++ A :: (l₂ ++ B :: l₃)).map Message.content).Nodup) :
    A ∉ l₁ ∧ A ∉ l₂ ∧ A ∉ l₃ ∧ B ∉ l₁ ∧ B ∉ l₂ ∧ B ∉ l₃ ∧ A ≠ B := by
  simp only [List.map_append, List.map_cons] at hnd
  rw [List.nodup_append] at hnd
  obtain ⟨-, hnd₂, hdisj⟩ := hnd
  rw [List.nodup_cons] at hnd₂
  obtain ⟨hAc, hnd₃⟩ := hnd₂
  rw [List.nodup_append] at hnd₃
  obtain ⟨-, hnd₅, hdisj₂⟩ := hnd₃
  rw [List.nodup_cons] at hnd₅
  obtain ⟨hBc, -⟩ := hnd₅
  refine ⟨?_, ?_, ?_, ?_, ?_, ?_, ?_⟩
  · intro h
    exact hdisj (List.mem_map_of_mem _ h) (List.mem_cons_self _ _)
  · intro h
    exact hAc (List.mem_append_left _ (List.mem_map_of_mem _ h))
  · intro h
    exact hAc (List.mem_append_right _
      (List.mem_cons_of_mem _ (List.mem_map_of_mem _ h)))
  · intro h
    exact hdisj (List.mem_map_of_mem _ h)
      (List.mem_cons_of_mem _ (List.mem_append_right _ (List.mem_cons_self _ _)))
  · intro h
    exact hdisj₂ (List.mem_map_of_mem _ h) (List.mem_cons_self _ _)
  · intro h
    exact hBc (List.mem_map_of_mem _ h)
  · intro h
    exact hAc (List.mem_append_right _ (h ▸ List.mem_cons_self _ _))

theorem eq_of_content_eq_of_nodup {l : List Message}
    (h : (l.map Message.content).Nodup) {x y : Message}
    (hx : x ∈ l) (hy : y ∈ l) (hc : x.content = y.content) : x = y :=
  List.inj_on_of_nodup_map h hx hy hc

theorem runMsgs_first_wins (env : Env) (data : BatchRequest) (fb : List String)
    (emb : String → Vec) (l₁ l₂ l₃ : List Message) (A B : Message) (st0 : PState)
    (hnd : ((l₁ ++ A :: (l₂ ++ B :: l₃)).map Message.content).Nodup)
    (hA0 : A ∉ st0.accepted) (hB0 : B ∉ st0.accepted)
    (hsim : data.similarity_search_score_threshold
      ≤ 1 - env.dist (emb B.content) (emb A.content))
    (hA : A ∈ (runMsgs env data (buildConditions fb data) (l₁ ++ A :: (l₂ ++ B :: l₃))
        ((l₁ ++ A :: (l₂ ++ B :: l₃)).map fun m => emb m.content) st0).1.accepted) :
    B ∉ (runMsgs env data (buildConditions fb data) (l₁ ++ A :: (l₂ ++ B :: l₃))
        ((l₁ ++ A :: (l₂ ++ B :: l₃)).map fun m => emb m.content) st0).1.accepted := by
  obtain ⟨hAl₁, hAl₂, hAl₃, hBl₁, hBl₂, hBl₃, hAB⟩ := nodup_split_facts hnd
  have hsplit₁ := runMsgs_append env data (buildConditions fb data)
    l₁ (l₁.map fun m => emb m.content)
    (A :: (l₂ ++ B :: l₃)) ((A :: (l₂ ++ B :: l₃)).map fun m => emb m.content)
    st0 (by simp)
  rw [List.map_append] at hA ⊢
  rw [hsplit₁] at hA ⊢
  rcases hres₁ : runMsgs env data (buildConditions fb data) l₁
      (l₁.map fun m => emb m.content) st0 with ⟨st₁, ok₁⟩
  rw [hres₁] at hA ⊢
  have hmem₁ : ∀ x, x ∈ st₁.accepted → x ∈ st0.accepted ∨ x ∈ l₁ := by
    intro x hx
    have hgen := mem_accepted_run env data (buildConditions fb data) l₁
      (l₁.map fun m => emb m.content) st0 x
    rw [hres₁] at hgen
    exact hgen hx
  cases ok₁ with
  | false =>
    dsimp only at hA ⊢
    intro hB
    rcases hmem₁ B hB with h | h
    · exact hB0 h
    · exact hBl₁ h
  | true =>
    dsimp only at hA ⊢
    simp only [List.map_cons, runMsgs] at hA ⊢
    rcases hstep : stepMsg env data (buildConditions fb data) st₁ A
        (emb A.content) with _ | st₂
    · dsimp only
      intro hB
      rcases hmem₁ B hB with h | h
      · exact hB0 h
      · exact hBl₁ h
    · rw [hstep] at hA
      dsimp only at hA ⊢
      rcases stepMsg_some_cases env data (buildConditions fb data) st₁ st₂ A
          (emb A.content) hstep with ⟨-, hacc⟩ | ⟨-, hdrop⟩
      · -- the step accepted A: its record is visible to every later message
        have hB₂ : B ∉ st₂.accepted := by
          rw [hacc]
          dsimp only
          intro h
          rcases List.mem_append.1 h with h | h
          · rcases hmem₁ B h with h' | h'
            · exact hB0 h'
            · exact hBl₁ h'
          · have hBA : B = A := by simpa using h
            exact hAB hBA.symm
        have hrecA : mkRec data A (emb A.content)
            (nnScore env.dist (buildConditions fb data) st₁.store (emb A.content))
            ∈ st₂.store := by
          rw [hacc]
          simp
        have hsplit₂ := runMsgs_append env data (buildConditions fb data)
          l₂ (l₂.map fun m => emb m.content)
          (B :: l₃) ((B :: l₃).map fun m => emb m.content) st₂ (by simp)
        rw [List.map_append]
        rw [hsplit₂]
        rcases hres₂ : runMsgs env data (buildConditions fb data) l₂
            (l₂.map fun m => emb m.content) st₂ with ⟨st₃, ok₂⟩
        rw [hres₂]
        have hmem₃ : ∀ x, x ∈ st₃.accepted → x ∈ st₂.accepted ∨ x ∈ l₂ := by
          intro x hx
          have hgen := mem_accepted_run env data (buildConditions fb data) l₂
            (l₂.map fun m => emb m.content) st₂ x
          rw [hres₂] at hgen
          exact hgen hx
        have hB₃ : B ∉ st₃.accepted := by
          intro h
          rcases hmem₃ B h with h | h
          · exact hB₂ h
          · exact hBl₂ h
        cases ok₂ with
        | false =>
          dsimp only
          exact hB₃
        | true =>
          dsimp only
          have hrecA₃ : mkRec data A (emb A.content)
              (nnScore env.dist (buildConditions fb data) st₁.store (emb A.content))
              ∈ st₃.store := by
            obtain ⟨acc, recs, e1, -, -, -⟩ := runMsgs_ext env data
              (buildConditions fb data) l₂ (l₂.map fun m => emb m.content) st₂
            rw [hres₂] at e1
            dsimp only at e1
            rw [e1]
            exact List.mem_append_left _ hrecA
          have hscore : data.similarity_search_score_threshold
              ≤ nnScore env.dist (buildConditions fb data) st₃.store (emb B.content) := by
            refine le_trans ?_ (le_nnScore_of_mem env.dist (buildConditions fb data)
              st₃.store (emb B.content) _ hrecA₃
              (matchesConds_mkRec fb data A (emb A.content) _))
            simpa [mkRec] using hsim
          simp only [List.map_cons, runMsgs]
          rcases hstepB : stepMsg env data (buildConditions fb data) st₃ B
              (emb B.content) with _ | st₄
          · dsimp only
            exact hB₃
          · dsimp only
            rcases stepMsg_some_cases env data (buildConditions fb data) st₃ st₄ B
                (emb B.content) hstepB with ⟨hlt, -⟩ | ⟨-, hdropB⟩
            · exact absurd hlt (not_lt.2 hscore)
            · intro hB
              have hmB := mem_accepted_run env data (buildConditions fb data) l₃
                (l₃.map fun m => emb m.content) st₄ B hB
              rcases hmB with h | h
              · rw [hdropB] at h
                exact hB₃ h
              · exact hBl₃ h
      · -- the step dropped A: contradicts acceptance of A downstream
        exfalso
        have hmA := mem_accepted_run env data (buildConditions fb data)
          (l₂ ++ B :: l₃) ((l₂ ++ B :: l₃).map fun m => emb m.content) st₂ A hA
        rcases hmA with h | h
        · rw [hdrop] at h
          dsimp only at h
          rcases hmem₁ A h with h' | h'
          · exact hA0 h'
          · exact hAl₁ h'
        · rcases List.mem_append.1 h with h' | h'
          · exact hAl₂ h'
          · rcases List.mem_cons.1 h' with h'' | h''
            · exact hAB h''
            · exact hAl₃ h''

/-! ### Decision equations of the similarity gate -/

theorem stepMsg_accepts (env : Env) (data : BatchRequest)
    (conds : List (String × String)) (st : PState) (m : Message) (v : Vec)
    (hq : env.queryFails st.store v = false)
    (hi : ∀ r, env.insertFails st.store r = false)
    (hlt : nnScore env.dist conds st.store v
      < data.similarity_search_score_threshold) :
    stepMsg env data conds st m v
      = some ⟨st.store ++ [mkRec data m v (nnScore env.dist conds st.store v)],
          st.accepted ++ [m], st.dropped⟩ := by
  unfold stepMsg
  rw [hq]
  dsimp only
  rw [if_neg (by simp), if_pos hlt, hi]
  simp

theorem stepMsg_rejects (env : Env) (data : BatchRequest)
    (conds : List (String × String)) (st : PState) (m : Message) (v : Vec)
    (hq : env.queryFails st.store v = false)
    (hge : data.similarity_search_score_threshold
      ≤ nnScore env.dist conds st.store v) :
    stepMsg env data conds st m v = some ⟨st.store, st.accepted, st.dropped + 1⟩ := by
  unfold stepMsg
  rw [hq]
  dsimp only
  rw [if_neg (by simp), if_neg (not_lt.2 hge)]

/-! ### Concrete fixtures used by witnesses and counterexamples -/

/-- A message with content `alpha`. -/
def msgA : Message :=
  ⟨"m1", "2023-05-15T14:30:00Z", "alpha", "tw", "u1", "pm1", "purl1"⟩

/-- A second message, also with content `alpha` (an exact duplicate of `msgA`). -/
def msgA2 : Message :=
  ⟨"m2", "2023-05-15T14:31:00Z", "alpha", "tw", "u2", "pm2", "purl2"⟩

/-- A message with content `gamma` (same length as `alpha`, so the
length-based test embedding maps both to the same vector). -/
def msgC : Message :=
  ⟨"m3", "2023-05-15T14:32:00Z", "gamma", "tw", "u3", "pm3", "purl3"⟩

/-- A test embedding: a one-dimensional vector holding the content length. -/
def lenEmb (s : String) : Vec := [(s.length : ℚ)]

/-- A reliable environment whose distance is constantly `0` (every pair of
vectors counts as identical). -/
def pureEnv : Env :=
  { embedChunk := fun ls => some (ls.map lenEmb)
    dist := fun _ _ => 0
    queryFails := fun _ _ => false
    insertFails := fun _ _ => false }

/-- A reliable environment whose distance is constantly `1/2`. -/
def halfEnv : Env :=
  { embedChunk := fun ls => some (ls.map lenEmb)
    dist := fun _ _ => 1/2
    queryFails := fun _ _ => false
    insertFails := fun _ _ => false }

/-- An environment whose embedding provider always throws. -/
def failEnv : Env :=
  { embedChunk := fun _ => none
    dist := fun _ _ => 0
    queryFails := fun _ _ => false
    insertFails := fun _ _ => false }

/-- A one-message batch request with threshold `1/2`. -/
def baseData : BatchRequest :=
  { table_name := "tbl", job_id := "job", topic := "top", industry := "ind"
    subindustry := "sub", similarity_search_score_threshold := 1/2
    filter_by := none, messages := [msgA] }

/-- A request like `baseData` but with threshold `0`. -/
def dataThr0 : BatchRequest :=
  { baseData with similarity_search_score_threshold := 0 }

/-- A stored record left by an earlier acceptance of `msgC`. -/
def recBeta : StoredRecord := mkRec baseData msgC (lenEmb "gamma") 0

/-! ### Claims -/

/-- C3: for every ordered batch, the exact-match filter returns the ordered
subsequence of first occurrences of each distinct content value under exact
string equality: the output is a subsequence of the input, every kept
message is the first occurrence of its content (`List.find?`), and each
content value `c` is kept exactly `min 1 (number of occurrences)` times —
in particular, of two messages with identical content exactly the first
survives. -/
theorem C3_exact_match_first_occurrence (l : List Message) (c : String) :
    (dedupeExact l).Sublist l ∧
    (∀ m ∈ dedupeExact l, l.find? (fun x => x.content == m.content) = some m) ∧
    (dedupeExact l).countP (fun m => m.content == c)
      = min 1 (l.countP (fun m => m.content == c)) :=
  ⟨dedupeExact_sublist l, fun m hm => dedupeExact_first_occ l m hm,
    dedupeExact_countP l c⟩

/-- Witness for C3 at a concrete batch `[msgA, msgA2, msgC]` whose first two
messages share the content `alpha`. -/
theorem C3_witness :
    (dedupeExact [msgA, msgA2, msgC]).Sublist [msgA, msgA2, msgC] ∧
    [msgA, msgA2, msgC].find? (fun x => x.content == msgA.content) = some msgA ∧
    (dedupeExact [msgA, msgA2, msgC]).countP (fun m => m.content == "alpha")
      = min 1 ([msgA, msgA2, msgC].countP (fun m => m.content == "alpha")) := by
  obtain ⟨h1, h2, h3⟩ := C3_exact_match_first_occurrence [msgA, msgA2, msgC] "alpha"
  exact ⟨h1, h2 msgA (by decide), h3⟩

/-- C7: a condition `(f, v)` is part of the query predicate exactly when
`f` is listed in `filter_by`, `f` is one of the four recognized fields with
request value `v`, and `v` is non-empty; and the recognized fields are
exactly `topic`, `industry`, `subindustry`, `job_id`. -/
theorem C7_filter_predicate_exact (fb : List String) (data : BatchRequest)
    (f v : String) :
    ((f, v) ∈ buildConditions fb data
      ↔ f ∈ fb ∧ fieldValue data f = some v ∧ v ≠ "") ∧
    ((fieldValue data f).isSome = true
      ↔ f ∈ ["topic", "industry", "subindustry", "job_id"]) :=
  ⟨mem_buildConditions fb data f v, fieldValue_isSome_iff data f⟩

/-- Witness for C7: on `baseData`, `filter_by = ["topic", "bogus"]` yields
the single condition on `topic`. -/
theorem C7_witness :
    ("topic", "top") ∈ buildConditions ["topic", "bogus"] baseData := by
  refine ((C7_filter_predicate_exact ["topic", "bogus"] baseData "topic" "top").1).2
    ⟨by decide, by decide, by decide⟩

/-- C6 counterexample: an explicitly empty `filter_by` array is truthy in
JavaScript, so the resolved list is empty, contradicting the claim that the
resolved list is never empty. -/
theorem C6_counterexample : resolveFilterBy (some []) = [] := rfl

/-- C6 (amended): an absent `filter_by` defaults to `["topic",
"subindustry"]`; a present array is used unchanged; consequently the
resolved list is empty exactly when the request carries an explicitly empty
`filter_by` array (never when `filter_by` is absent). -/
theorem C6_default_filter_by :
    resolveFilterBy none = ["topic", "subindustry"] ∧
    (∀ l, resolveFilterBy (some l) = l) ∧
    (∀ ofb, resolveFilterBy ofb = [] ↔ ofb = some []) := by
  refine ⟨rfl, fun l => rfl, fun ofb => ?_⟩
  cases ofb <;> simp [resolveFilterBy]

/-- Witness for C6: the default at an absent `filter_by`. -/
theorem C6_witness : resolveFilterBy none = ["topic", "subindustry"] :=
  C6_default_filter_by.1

/-- C2: the accept/reject decision is a strict less-than comparison: a
score strictly below the threshold leads to an insert and an accept, and a
score exactly equal to the threshold leads to a reject counted in
`dropped`. -/
theorem C2_threshold_boundary_strict (env : Env) (data : BatchRequest)
    (conds : List (String × String)) (st : PState) (m : Message) (v : Vec)
    (hq : env.queryFails st.store v = false)
    (hi : ∀ r, env.insertFails st.store r = false) :
    (nnScore env.dist conds st.store v < data.similarity_search_score_threshold →
      stepMsg env data conds st m v
        = some ⟨st.store ++ [mkRec data m v (nnScore env.dist conds st.store v)],
            st.accepted ++ [m], st.dropped⟩) ∧
    (nnScore env.dist conds st.store v = data.similarity_search_score_threshold →
      stepMsg env data conds st m v = some ⟨st.store, st.accepted, st.dropped + 1⟩) :=
  ⟨fun hlt => stepMsg_accepts env data conds st m v hq hi hlt,
   fun heq => stepMsg_rejects env data conds st m v hq (le_of_eq heq.symm)⟩

/-- Witness for C2 at the exact boundary: with threshold `1/2` and a stored
neighbor at distance `1/2` (similarity exactly `1/2`), the message is
rejected and `dropped` is incremented. -/
theorem C2_witness :
    stepMsg halfEnv baseData [] ⟨[recBeta], [], 0⟩ msgA (lenEmb "alpha")
      = some ⟨[recBeta], [], 0 + 1⟩ := by
  refine (C2_threshold_boundary_strict halfEnv baseData [] ⟨[recBeta], [], 0⟩ msgA
    (lenEmb "alpha") rfl (fun r => rfl)).2 ?_
  show nnScore halfEnv.dist [] [recBeta] (lenEmb "alpha")
    = baseData.similarity_search_score_threshold
  norm_num [nnScore, matchesConds, halfEnv, baseData]

/-- C8 counterexample: with threshold `0` and an empty store, the
nearest-neighbor query finds no matching row and the score defaults to `0`,
yet the message is rejected (`0 < 0` fails), contradicting the claim that
it is accepted. -/
theorem C8_counterexample :
    ([] : Store).filter (matchesConds []) = [] ∧
    stepMsg pureEnv dataThr0 [] ⟨[], [], 0⟩ msgA (lenEmb "alpha")
      = some ⟨[], [], 0 + 1⟩ := by
  constructor
  · rfl
  · norm_num [stepMsg, nnScore, dataThr0, baseData, pureEnv, matchesConds]

/-- C8 (amended): when the nearest-neighbor query finds no matching row the
similarity score defaults to `0`, and — provided the threshold is strictly
positive — this is treated as no conflict and the message is accepted. -/
theorem C8_no_match_accepted (env : Env) (data : BatchRequest)
    (conds : List (String × String)) (st : PState) (m : Message) (v : Vec)
    (hq : env.queryFails st.store v = false)
    (hi : ∀ r, env.insertFails st.store r = false)
    (hempty : st.store.filter (matchesConds conds) = [])
    (hthr : 0 < data.similarity_search_score_threshold) :
    nnScore env.dist conds st.store v = 0 ∧
    stepMsg env data conds st m v
      = some ⟨st.store ++ [mkRec data m v (nnScore env.dist conds st.store v)],
          st.accepted ++ [m], st.dropped⟩ := by
  have h0 := nnScore_of_no_match env.dist conds st.store v hempty
  exact ⟨h0, stepMsg_accepts env data conds st m v hq hi (by rw [h0]; exact hthr)⟩

/-- Witness for C8: threshold `1/2 > 0` and an empty store accept the
message with score `0`. -/
theorem C8_witness :
    nnScore pureEnv.dist [] ([] : Store) (lenEmb "alpha") = 0 ∧
    stepMsg pureEnv baseData [] ⟨[], [], 0⟩ msgA (lenEmb "alpha")
      = some ⟨[] ++ [mkRec baseData msgA (lenEmb "alpha")
          (nnScore pureEnv.dist [] ([] : Store) (lenEmb "alpha"))], [] ++ [msgA], 0⟩ :=
  C8_no_match_accepted pureEnv baseData [] ⟨[], [], 0⟩ msgA (lenEmb "alpha")
    rfl (fun r => rfl) rfl (by norm_num [baseData])

/-! ### Inversion of the batch orchestrator -/

theorem processBatch_success_inv (env : Env) (data : BatchRequest)
    (fb : List String) (store0 : Store) (resp : BatchResponse)
    (h : (processBatch env data fb store0).2 = some resp) :
    ∃ st, runChunks env data (buildConditions fb data)
        (chunksOf (dedupeExact data.messages))
        ⟨store0, [], data.messages.length - (dedupeExact data.messages).length⟩
      = (st, true) ∧
      resp =
        { table_name := data.table_name
          job_id := data.job_id
          topic := data.topic
          industry := data.industry
          subindustry := data.subindustry
          similarity_search_score_threshold := data.similarity_search_score_threshold
          filter_by := fb
          stats :=
            { received := data.messages.length
              inserted := st.accepted.length
              dropped := st.dropped
              insertion_rate := jsDiv st.accepted.length data.messages.length }
          non_duplicate_messages :=
            st.accepted.map fun m => (m.message_id, m.content) } := by
  unfold processBatch at h
  split at h
  · rename_i st hrun
    dsimp only at h
    rw [Option.some.injEq] at h
    exact ⟨st, hrun, h.symm⟩
  · simp at h

theorem processBatch_fail_inv (env : Env) (data : BatchRequest)
    (fb : List String) (store0 : Store)
    (h : (processBatch env data fb store0).2 = none) :
    ∃ st, runChunks env data (buildConditions fb data)
        (chunksOf (dedupeExact data.messages))
        ⟨store0, [], data.messages.length - (dedupeExact data.messages).length⟩
      = (st, false) ∧
      (processBatch env data fb store0).1 = st.store := by
  unfold processBatch at h ⊢
  split at h
  · simp at h
  · rename_i st hrun
    rw [hrun]
    exact ⟨st, rfl, rfl⟩

/-! ### Concrete batch evaluations -/

/-- A two-message batch whose contents embed to the same test vector under
`lenEmb` (both have length 5). -/
def dupData : BatchRequest := { baseData with messages := [msgA, msgC] }

/-- A batch request with no messages. -/
def emptyData : BatchRequest := { baseData with messages := [] }

theorem eval_chunks_nil : chunksOf [] = [] := by
  rw [chunksOf]

theorem eval_chunks_base : chunksOf [msgA] = [[msgA]] := by
  rw [chunksOf]
  norm_num [embeddingBatchSize, chunksOf]

theorem eval_chunks_dup : chunksOf [msgA, msgC] = [[msgA, msgC]] := by
  rw [chunksOf]
  norm_num [embeddingBatchSize, chunksOf]

/-- The response of the successful one-message batch. -/
def respA : BatchResponse :=
  { table_name := "tbl", job_id := "job", topic := "top", industry := "ind"
    subindustry := "sub", similarity_search_score_threshold := 1/2
    filter_by := ["topic"]
    stats := { received := 1, inserted := 1, dropped := 0, insertion_rate := some 1 }
    non_duplicate_messages := [("m1", "alpha")] }

/-- The response of the successful two-near-duplicate batch: the second
message is dropped. -/
def respDup : BatchResponse :=
  { table_name := "tbl", job_id := "job", topic := "top", industry := "ind"
    subindustry := "sub", similarity_search_score_threshold := 1/2
    filter_by := ["topic"]
    stats := { received := 2, inserted := 1, dropped := 1, insertion_rate := some (1/2) }
    non_duplicate_messages := [("m1", "alpha")] }

/-- The response of the successful empty batch: `insertion_rate` is the
non-finite result of `0 / 0`. -/
def respEmpty : BatchResponse :=
  { table_name := "tbl", job_id := "job", topic := "top", industry := "ind"
    subindustry := "sub", similarity_search_score_threshold := 1/2
    filter_by := ["topic"]
    stats := { received := 0, inserted := 0, dropped := 0, insertion_rate := none }
    non_duplicate_messages := [] }

theorem eval_base :
    processBatch pureEnv baseData ["topic"] []
      = ([mkRec baseData msgA (lenEmb "alpha") 0], some respA) := by
  have h1 : dedupeExact baseData.messages = [msgA] := rfl
  have h2 : buildConditions ["topic"] baseData = [("topic", "top")] := rfl
  unfold processBatch
  rw [h1, h2, eval_chunks_base]
  norm_num [runChunks, runMsgs, stepMsg, nnScore, matchesConds, pureEnv, jsDiv,
    respA, show msgA.content = "alpha" from rfl,
    show baseData.similarity_search_score_threshold = 1/2 from rfl,
    show baseData.messages.length = 1 from rfl,
    show msgA.message_id = "m1" from rfl,
    show baseData.table_name = "tbl" from rfl,
    show baseData.job_id = "job" from rfl,
    show baseData.topic = "top" from rfl,
    show baseData.industry = "ind" from rfl,
    show baseData.subindustry = "sub" from rfl]

theorem eval_dup :
    processBatch pureEnv dupData ["topic"] []
      = ([mkRec dupData msgA (lenEmb "alpha") 0], some respDup) := by
  have h1 : dedupeExact dupData.messages = [msgA, msgC] := rfl
  have h2 : buildConditions ["topic"] dupData = [("topic", "top")] := rfl
  unfold processBatch
  rw [h1, h2, eval_chunks_dup]
  norm_num [runChunks, runMsgs, stepMsg, nnScore, matchesConds, pureEnv, jsDiv,
    respDup, mkRec, recField,
    show msgA.content = "alpha" from rfl,
    show msgC.content = "gamma" from rfl,
    show dupData.similarity_search_score_threshold = 1/2 from rfl,
    show dupData.messages.length = 2 from rfl,
    show msgA.message_id = "m1" from rfl,
    show dupData.table_name = "tbl" from rfl,
    show dupData.job_id = "job" from rfl,
    show dupData.topic = "top" from rfl,
    show dupData.industry = "ind" from rfl,
    show dupData.subindustry = "sub" from rfl]

theorem eval_empty :
    processBatch pureEnv emptyData ["topic"] [] = ([], some respEmpty) := by
  have h1 : dedupeExact emptyData.messages = [] := rfl
  have h2 : buildConditions ["topic"] emptyData = [("topic", "top")] := rfl
  unfold processBatch
  rw [h1, h2, eval_chunks_nil]
  norm_num [runChunks, jsDiv, respEmpty,
    show emptyData.messages.length = 0 from rfl,
    show emptyData.similarity_search_score_threshold = 1/2 from rfl,
    show emptyData.table_name = "tbl" from rfl,
    show emptyData.job_id = "job" from rfl,
    show emptyData.topic = "top" from rfl,
    show emptyData.industry = "ind" from rfl,
    show emptyData.subindustry = "sub" from rfl]

theorem eval_fail :
    processBatch failEnv baseData ["topic"] [] = ([], none) := by
  have h1 : dedupeExact baseData.messages = [msgA] := rfl
  have h2 : buildConditions ["topic"] baseData = [("topic", "top")] := rfl
  unfold processBatch
  rw [h1, h2, eval_chunks_base]
  simp [runChunks, failEnv, show baseData.messages.length = 1 from rfl]

/-! ### Remaining claims -/

/-- C4: for every batch that completes successfully, the returned
statistics satisfy `received = inserted + dropped`, the dropped count
covering both the exact duplicates removed up front and the similarity
rejections. -/
theorem C4_received_eq_inserted_add_dropped (env : Env) (data : BatchRequest)
    (fb : List String) (store0 : Store) (resp : BatchResponse)
    (h : (processBatch env data fb store0).2 = some resp) :
    resp.stats.received = resp.stats.inserted + resp.stats.dropped := by
  obtain ⟨st, hrun, rfl⟩ := processBatch_success_inv env data fb store0 resp h
  have hc := runChunks_count env data (buildConditions fb data)
    (chunksOf (dedupeExact data.messages))
    ⟨store0, [], data.messages.length - (dedupeExact data.messages).length⟩
    (by rw [hrun])
  rw [hrun] at hc
  dsimp only at hc ⊢
  rw [chunksOf_join] at hc
  have hle := (dedupeExact_sublist data.messages).length_le
  simp only [List.length_nil] at hc
  omega

/-- Witness for C4 on the concrete one-message batch. -/
theorem C4_witness :
    respA.stats.received = respA.stats.inserted + respA.stats.dropped :=
  C4_received_eq_inserted_add_dropped pureEnv baseData ["topic"] [] respA
    (by rw [eval_base])

/-- C5 counterexample: for a successfully processed empty batch the code
computes `0 / 0`, a non-finite JavaScript number (`NaN`), not the value `0`
the claim asserts. -/
theorem C5_counterexample :
    ((processBatch pureEnv emptyData ["topic"] []).2.map
        fun r => r.stats.insertion_rate) = some none := by
  rw [eval_empty]
  rfl

/-- C5 (amended): for every batch that completes successfully,
`insertion_rate` equals `inserted / received` when `received > 0`; when
`received = 0` the code divides zero by zero and the rate is the non-finite
`NaN`, not `0`. -/
theorem C5_insertion_rate (env : Env) (data : BatchRequest)
    (fb : List String) (store0 : Store) (resp : BatchResponse)
    (h : (processBatch env data fb store0).2 = some resp) :
    (0 < resp.stats.received →
      resp.stats.insertion_rate
        = some ((resp.stats.inserted : ℚ) / (resp.stats.received : ℚ))) ∧
    (resp.stats.received = 0 → resp.stats.insertion_rate = none) := by
  obtain ⟨st, hrun, rfl⟩ := processBatch_success_inv env data fb store0 resp h
  dsimp only
  constructor
  · intro hpos
    rw [jsDiv, if_neg (by omega)]
  · intro h0
    rw [jsDiv, if_pos h0]

/-- Witness for C5 on the concrete one-message batch: the rate is
`1 / 1`. -/
theorem C5_witness :
    respA.stats.insertion_rate
      = some ((respA.stats.inserted : ℚ) / (respA.stats.received : ℚ)) :=
  (C5_insertion_rate pureEnv baseData ["topic"] [] respA (by rw [eval_base])).1
    (by norm_num [respA])

/-- C10: for every batch that completes successfully, the returned
`non_duplicate_messages` list is the image (message id and content only) of
a subsequence of the input messages, in submission order, with pairwise
distinct contents — whatever the store and the embedding provider
returned. -/
theorem C10_accepted_subsequence_distinct (env : Env) (data : BatchRequest)
    (fb : List String) (store0 : Store) (resp : BatchResponse)
    (h : (processBatch env data fb store0).2 = some resp) :
    ∃ ms' : List Message, ms'.Sublist data.messages ∧
      resp.non_duplicate_messages = ms'.map (fun m => (m.message_id, m.content)) ∧
      (ms'.map Message.content).Nodup := by
  obtain ⟨st, hrun, rfl⟩ := processBatch_success_inv env data fb store0 resp h
  obtain ⟨acc, recs, -, e2, e3, -⟩ := runChunks_ext env data (buildConditions fb data)
    (chunksOf (dedupeExact data.messages))
    ⟨store0, [], data.messages.length - (dedupeExact data.messages).length⟩
  rw [hrun] at e2
  dsimp only at e2 ⊢
  rw [List.nil_append] at e2
  rw [chunksOf_join] at e3
  refine ⟨acc, e3.trans (dedupeExact_sublist _), by rw [e2], ?_⟩
  exact (dedupeExact_content_nodup data.messages).sublist (e3.map Message.content)

/-- Witness for C10 on the concrete one-message batch. -/
theorem C10_witness :
    respA.non_duplicate_messages.length ≤ baseData.messages.length := by
  obtain ⟨ms', hsub, heq, -⟩ := C10_accepted_subsequence_distinct pureEnv baseData
    ["topic"] [] respA (by rw [eval_base])
  rw [heq, List.length_map]
  exact hsub.length_le

/-- C9: when the batch aborts (embedding provider call or store
query/insert threw), no success payload is produced (the second component
is `none`), and the store extends the initial store by exactly the rows
inserted for accepted messages of a proper prefix of the deduplicated
batch: everything at and after the failing message contributes nothing. -/
theorem C9_fail_fast_aborts (env : Env) (data : BatchRequest)
    (fb : List String) (store0 : Store)
    (h : (processBatch env data fb store0).2 = none) :
    ∃ (pre suf acc : List Message) (recs : Store),
      dedupeExact data.messages = pre ++ suf ∧ suf ≠ [] ∧
      (processBatch env data fb store0).1 = store0 ++ recs ∧
      acc.Sublist pre ∧
      recs.map StoredRecord.content = acc.map Message.content := by
  obtain ⟨st, hrun, hstore⟩ := processBatch_fail_inv env data fb store0 h
  obtain ⟨pre, suf, acc, recs, k1, k2, k3, k4, k5, k6⟩ := runChunks_fail env data
    (buildConditions fb data) (chunksOf (dedupeExact data.messages))
    ⟨store0, [], data.messages.length - (dedupeExact data.messages).length⟩ st
    (ne_nil_of_mem_chunksOf _) hrun
  rw [chunksOf_join] at k1
  dsimp only at k3
  exact ⟨pre, suf, acc, recs, k1, k2, by rw [hstore, k3], k5, k6⟩

/-- Witness for C9: the provider that always throws aborts the one-message
batch, so its deduplicated message list splits around a failure point. -/
theorem C9_witness : dedupeExact baseData.messages ≠ [] := by
  obtain ⟨pre, suf, acc, recs, h1, h2, -, -, -⟩ :=
    C9_fail_fast_aborts failEnv baseData ["topic"] [] (by rw [eval_fail])
  rw [h1]
  simp [h2]

/-- C1: messages are processed strictly sequentially and each accepted
message's row is in the store before the next message's query, so within
one batch the first occurrence wins: if `A` precedes `B` in the
deduplicated batch, `A` is accepted, and the similarity of `B` against
`A`'s stored embedding reaches the threshold, then `B` is rejected —
regardless of the initial store contents and of any store failures later in
the batch. -/
theorem C1_sequential_first_occurrence_wins (env : Env) (data : BatchRequest)
    (fb : List String) (store0 : Store) (emb : String → Vec)
    (l₁ l₂ l₃ : List Message) (A B : Message) (resp : BatchResponse)
    (hpure : env.embedChunk = fun ls => some (ls.map emb))
    (hsplit : dedupeExact data.messages = l₁ ++ A :: (l₂ ++ B :: l₃))
    (hsim : data.similarity_search_score_threshold
      ≤ 1 - env.dist (emb B.content) (emb A.content))
    (hresp : (processBatch env data fb store0).2 = some resp)
    (hA : (A.message_id, A.content) ∈ resp.non_duplicate_messages) :
    (B.message_id, B.content) ∉ resp.non_duplicate_messages := by
  obtain ⟨st, hrun, rfl⟩ := processBatch_success_inv env data fb store0 resp hresp
  rw [runChunks_pure env data (buildConditions fb data) emb hpure] at hrun
  set d := data.messages.length - (dedupeExact data.messages).length with hd
  rw [hsplit] at hrun
  have hnd : ((l₁ ++ A :: (l₂ ++ B :: l₃)).map Message.content).Nodup :=
    hsplit ▸ dedupeExact_content_nodup data.messages
  obtain ⟨acc, recs, -, e2, e3, -⟩ := runMsgs_ext env data (buildConditions fb data)
    (l₁ ++ A :: (l₂ ++ B :: l₃))
    ((l₁ ++ A :: (l₂ ++ B :: l₃)).map fun m => emb m.content)
    ⟨store0, [], d⟩
  rw [hrun] at e2
  dsimp only at e2
  rw [List.nil_append] at e2
  dsimp only at hA ⊢
  rw [e2] at hA ⊢
  obtain ⟨C, hCacc, hCpair⟩ := List.mem_map.1 hA
  rw [Prod.mk.injEq] at hCpair
  have hCuniq : C ∈ dedupeExact data.messages := by
    rw [hsplit]
    exact e3.subset hCacc
  have hAuniq : A ∈ dedupeExact data.messages := by
    rw [hsplit]
    simp
  have hBuniq : B ∈ dedupeExact data.messages := by
    rw [hsplit]
    simp
  have hCA : C = A :=
    eq_of_content_eq_of_nodup (dedupeExact_content_nodup data.messages)
      hCuniq hAuniq hCpair.2
  have hAaccRun : A ∈ (runMsgs env data (buildConditions fb data)
      (l₁ ++ A :: (l₂ ++ B :: l₃))
      ((l₁ ++ A :: (l₂ ++ B :: l₃)).map fun m => emb m.content)
      ⟨store0, [], d⟩).1.accepted := by
    rw [hrun]
    dsimp only
    rw [e2]
    exact hCA ▸ hCacc
  have hBnot := runMsgs_first_wins env data fb emb l₁ l₂ l₃ A B
    ⟨store0, [], d⟩
    hnd (by simp) (by simp) hsim hAaccRun
  rw [hrun] at hBnot
  dsimp only at hBnot
  rw [e2] at hBnot
  intro hBpair
  obtain ⟨D, hDacc, hDpair⟩ := List.mem_map.1 hBpair
  rw [Prod.mk.injEq] at hDpair
  have hDuniq : D ∈ dedupeExact data.messages := by
    rw [hsplit]
    exact e3.subset hDacc
  have hDB : D = B :=
    eq_of_content_eq_of_nodup (dedupeExact_content_nodup data.messages)
      hDuniq hBuniq hDpair.2
  exact hBnot (hDB ▸ hDacc)

/-- Witness for C1: in the concrete two-message batch whose contents embed
to the same vector, the first message is accepted and the second is
rejected. -/
theorem C1_witness : ("m3", "gamma") ∉ respDup.non_duplicate_messages := by
  have h := C1_sequential_first_occurrence_wins pureEnv dupData ["topic"] []
    lenEmb [] [] [] msgA msgC respDup rfl rfl
    (by norm_num [pureEnv, dupData, baseData]) (by rw [eval_dup]) (by decide)
  exact h

end Dedup
